import Mathlib

/-!
Shallow embedding of `tinygrad/ops.py` (a minimal reverse-mode autodiff
engine).  Dense arrays are embedded as total functions from indices to the
element type, with shapes carried separately; machine floats are embedded
as exact arithmetic (`Int` for the algebraic kernels, `ℝ` for log-softmax,
which uses `exp`/`log`), so every identity claimed "up to floating-point
summation order" is stated as an exact equality.  `numpy` reshapes of
C-contiguous arrays are embedded as index flattening/unflattening with the
C-order (row-major) convention, which is what `ndarray.reshape` performs.
-/

namespace TG

/-- Sum over a flattened C-order index range `range (m*n)` equals the nested
sum over the two unflattened indices (`k = i*n + j`). -/
lemma sum_range_mul {M : Type} [AddCommMonoid M] (m n : ℕ) (f : ℕ → M) :
    ∑ k ∈ Finset.range (m * n), f k =
      ∑ i ∈ Finset.range m, ∑ j ∈ Finset.range n, f (i * n + j) := by
  induction m with
  | zero => simp
  | succ m ih =>
      rw [Nat.succ_mul, Finset.sum_range_add, ih, Finset.sum_range_succ]

/-- Unflattening under a flattened sum: if the summand reads the flattened
index back through `/ n` and `% n`, the nested indices reappear. -/
lemma sum_range_mul_divmod {M : Type} [AddCommMonoid M] (m n : ℕ)
    (g : ℕ → ℕ → M) :
    ∑ k ∈ Finset.range (m * n), g (k / n) (k % n) =
      ∑ i ∈ Finset.range m, ∑ j ∈ Finset.range n, g i j := by
  rw [sum_range_mul m n (fun k => g (k / n) (k % n))]
  refine Finset.sum_congr rfl (fun i _ => ?_)
  refine Finset.sum_congr rfl (fun j hj => ?_)
  have hj' : j < n := Finset.mem_range.mp hj
  have h1 : (i * n + j) / n = i := by
    rw [Nat.mul_comm i n, Nat.mul_add_div (Nat.pos_of_ne_zero (by omega))]
    simp [Nat.div_eq_of_lt hj']
  have h2 : (i * n + j) % n = j := by
    rw [Nat.mul_comm i n, Nat.mul_add_mod]
    exact Nat.mod_eq_of_lt hj'
  rw [h1, h2]

/-- Collapsing a guarded sum: summing `if Y + dy = y then f dy else 0` over
`dy < H` leaves exactly the term at `dy = y - Y` when `y` lies in the
window `[Y, Y+H)`, and `0` otherwise. -/
lemma sum_range_ite_window {M : Type} [AddCommMonoid M] (H Y y : ℕ)
    (f : ℕ → M) :
    ∑ dy ∈ Finset.range H, (if Y + dy = y then f dy else 0) =
      if Y ≤ y ∧ y < Y + H then f (y - Y) else 0 := by
  by_cases h : Y ≤ y ∧ y < Y + H
  · rw [if_pos h]
    have hmem : y - Y ∈ Finset.range H := by
      refine Finset.mem_range.mpr ?_
      omega
    rw [Finset.sum_eq_single (y - Y)]
    · rw [if_pos (by omega)]
    · intro b _ hb
      rw [if_neg (by omega)]
    · intro hnot
      exact absurd hmem hnot
  · rw [if_neg h]
    refine Finset.sum_eq_zero (fun dy hdy => ?_)
    have := Finset.mem_range.mp hdy
    rw [if_neg (by omega)]

/-!
Flat dense arrays.  A `numpy` array is embedded as its shape together with
its flat C-order data buffer, a total function `ℕ → Int` (reads beyond the
buffer are unconstrained junk, never relied on by any theorem).  `reshape`
on a C-contiguous array keeps the buffer and swaps the shape; validity of
the target shape (equal element counts) is carried as a hypothesis where a
claim needs it.
-/

structure NDArray where
  shape : List ℕ
  data : ℕ → Int

/-- Number of elements described by a shape (product of the dimensions). -/
def listProd (s : List ℕ) : ℕ := s.foldr (· * ·) 1

/-- Embedding of `ndarray.reshape(shape)` on a C-contiguous array: same flat
buffer, new shape. -/
def npReshape (x : NDArray) (s : List ℕ) : NDArray := ⟨s, x.data⟩

/-- Source `Reshape.forward` (ops.py lines 6-9): `ctx.save_for_backward(x.shape)`
then `x.reshape(shape)`.  Returns (output, saved context). -/
def Reshape.forward (x : NDArray) (s : List ℕ) : NDArray × List ℕ :=
  (npReshape x s, x.shape)

/-- Source `Reshape.backward` (ops.py lines 11-14): returns
`grad_output.reshape(in_shape), None`; the Python `None` no-gradient
placeholder is embedded as `Option.none`. -/
def Reshape.backward (ctx : List ℕ) (g : NDArray) :
    Option NDArray × Option NDArray :=
  (some (npReshape g ctx), none)

/-- Source `Add.forward` (ops.py lines 30-32): `x + y`, elementwise on the
flat buffers (the context saves nothing, embedded as `Unit`). -/
def Add.forward (x y : NDArray) : NDArray × Unit :=
  (⟨x.shape, fun i => x.data i + y.data i⟩, ())

/-- Source `Add.backward` (ops.py lines 34-36): returns
`grad_output, grad_output` — two real arrays, no `None` placeholder. -/
def Add.backward (_ : Unit) (g : NDArray) : Option NDArray × Option NDArray :=
  (some g, some g)

/-- Sum of all elements of an array (the flat buffer over its extent),
embedding `input.sum()`. -/
def arrSum (x : NDArray) : Int :=
  ∑ i ∈ Finset.range (listProd x.shape), x.data i

/-- Source `Sum.forward` (ops.py lines 68-71): `ctx.save_for_backward(input)`
(the whole input array) then `np.array([input.sum()])`, a 1-element array. -/
def Sum.forward (x : NDArray) : NDArray × NDArray :=
  (⟨[1], fun _ => arrSum x⟩, x)

/-- Embedding of `np.ones_like(a)`. -/
def onesLike (a : NDArray) : NDArray := ⟨a.shape, fun _ => 1⟩

/-- Source `Sum.backward` (ops.py lines 73-76): `grad_output * np.ones_like(input)`;
`grad_output` has shape `(1,)`, so broadcasting multiplies its single
element `g.data 0` into every position of the ones array. -/
def Sum.backward (saved : NDArray) (g : NDArray) : NDArray :=
  ⟨saved.shape, fun i => g.data 0 * (onesLike saved).data i⟩

/-!
Matrices for `Dot`, embedded as total functions `ℕ → ℕ → Int`; the
contraction length of each `.dot` is passed explicitly (in `numpy` it is
implicit in the operand shapes).
-/

/-- Matrix type: entry at (row, col). -/
def Mat : Type := ℕ → ℕ → Int

/-- Matrix product contracting over `n`: `(A.dot(B)) i j = Σ_{k<n} A i k * B k j`. -/
def mdot (A B : Mat) (n : ℕ) : Mat :=
  fun i j => ∑ k ∈ Finset.range n, A i k * B k j

/-- Matrix transpose `A.T`. -/
def mT (A : Mat) : Mat := fun i j => A j i

/-- Source `Dot.forward` (ops.py lines 54-57): saves `(input, weight)` and
returns `input.dot(weight)`; `input : m×n`, `weight : n×p`. -/
def Dot.forward (x w : Mat) (n : ℕ) : Mat × (Mat × Mat) :=
  (mdot x w n, (x, w))

/-- Source `Dot.backward` (ops.py lines 59-64):
`grad_input = grad_output.dot(weight.T)` (contracting over `p`, the output
column count) and `grad_weight = grad_output.T.dot(input).T` (contracting
over `m`, the batch row count). -/
def Dot.backward (ctx : Mat × Mat) (g : Mat) (m p : ℕ) : Mat × Mat :=
  (mdot g (mT ctx.2) p, mT (mdot (mT g) ctx.1 m))

/-!
Log-softmax (ops.py lines 79-94) works on 2-D real arrays row-wise over
axis 1; it is the one kernel using `exp`/`log`, so it is embedded over `ℝ`.
A 2-D array is a total function (row, col) → ℝ with `n` columns.
-/

/-- Real matrix type for the log-softmax kernel. -/
def MatR : Type := ℕ → ℕ → ℝ

/-- Embedding of `x.max(axis=1)` on one row of length `n`: fold of `max`
over the row entries (seeded with the first entry; for `n ≥ 1` this is the
row maximum, and all theorems assume a nonempty row). -/
noncomputable def rowMax (v : ℕ → ℝ) (n : ℕ) : ℝ :=
  (Finset.range n).fold max (v 0) v

/-- Row sum `g.sum(axis=1)` over `n` columns. -/
def rowSum (g : MatR) (n : ℕ) (i : ℕ) : ℝ :=
  ∑ k ∈ Finset.range n, g i k

/-- Source inner `logsumexp` (ops.py lines 82-85), the numerically stable
form: `c = x.max(axis=1)`, then `c + log(exp(x - c).sum(axis=1))`. -/
noncomputable def logsumexp (x : MatR) (n : ℕ) (i : ℕ) : ℝ :=
  rowMax (x i) n + Real.log (∑ j ∈ Finset.range n, Real.exp (x i j - rowMax (x i) n))

/-- Source `LogSoftmax.forward` (ops.py lines 81-88):
`output = input - logsumexp(input).reshape((-1,1))` (per-row broadcast),
and `ctx.save_for_backward(output)` — the pair returned is
(output, saved context). -/
noncomputable def LogSoftmax.forward (x : MatR) (n : ℕ) : MatR × MatR :=
  ((fun i j => x i j - logsumexp x n i), (fun i j => x i j - logsumexp x n i))

/-- Source `LogSoftmax.backward` (ops.py lines 90-93):
`grad_output - np.exp(output) * grad_output.sum(axis=1).reshape((-1,1))`,
reading `output` from the saved context. -/
noncomputable def LogSoftmax.backward (ctx : MatR) (g : MatR) (n : ℕ) : MatR :=
  fun i j => g i j - Real.exp (ctx i j) * rowSum g n i

/-!
Convolution (ops.py lines 97-171).  4-D tensors are total functions
(b, channel, y, x) → Int.  `numpy` reshapes of C-contiguous blocks are
embedded as C-order index flattening: the flat index of `(ci, dy, dx)`
within a `(cin, H, W)` block is `ci*(H*W) + dy*W + dx`, read back with
`/ (H*W)`, `% (H*W) / W`, `% W`.
-/

/-- 4-D tensor: entry at (batch, channel, y, x). -/
def T4 : Type := ℕ → ℕ → ℕ → ℕ → Int

/-- C-order flat index of `(a, b, c)` within a block of shape `(·, H, W)`. -/
def flat3 (H W a b c : ℕ) : ℕ := a * (H * W) + b * W + c

lemma flat3_div (H W a b c : ℕ) (hb : b < H) (hc : c < W) :
    flat3 H W a b c / (H * W) = a := by
  unfold flat3
  have hsmall : b * W + c < H * W := by
    calc b * W + c < b * W + W := by omega
    _ = (b + 1) * W := by ring
    _ ≤ H * W := Nat.mul_le_mul_right W (by omega)
  rw [Nat.add_assoc, Nat.mul_comm a (H * W),
    Nat.mul_add_div (Nat.pos_of_ne_zero (by omega)),
    Nat.div_eq_of_lt hsmall]
  omega

lemma flat3_mod_div (H W a b c : ℕ) (hb : b < H) (hc : c < W) :
    flat3 H W a b c % (H * W) / W = b := by
  unfold flat3
  have hsmall : b * W + c < H * W := by
    calc b * W + c < b * W + W := by omega
    _ = (b + 1) * W := by ring
    _ ≤ H * W := Nat.mul_le_mul_right W (by omega)
  rw [Nat.add_assoc, Nat.mul_comm a (H * W), Nat.mul_add_mod,
    Nat.mod_eq_of_lt hsmall, Nat.mul_comm b W,
    Nat.mul_add_div (Nat.pos_of_ne_zero (by omega)), Nat.div_eq_of_lt hc]
  omega

lemma flat3_mod (H W a b c : ℕ) (hc : c < W) :
    flat3 H W a b c % W = c := by
  have h : flat3 H W a b c = (a * H + b) * W + c := by
    unfold flat3; ring
  rw [h, Nat.mul_comm (a * H + b) W, Nat.mul_add_mod, Nat.mod_eq_of_lt hc]

/-- Source lines 108 and 123: `x[:, :, Y:Y+H, X:X+W].reshape(bs, -1)` — the
flattened sliding-window patch at spatial offset `(Y, X)`; entry `(b, k)`
unflattens the column `k` in C order over `(cin, H, W)`. -/
def patchRow (x : T4) (H W Y X : ℕ) : ℕ → ℕ → Int :=
  fun b k => x b (k / (H * W)) (Y + k % (H * W) / W) (X + k % W)

/-- Source line 117 (and line 155): `tw = w.reshape(cout, -1)` — the kernel
flattened over `(cin, H, W)` in C order; entry `(co, k)`. -/
def wFlat (w : T4) (H W : ℕ) : ℕ → ℕ → Int :=
  fun co k => w co (k / (H * W)) (k % (H * W) / W) (k % W)

/-- Source lines 101 and 133: `tw = w.reshape(cout, -1).T` — the transposed
flattened kernel; entry `(k, co)`. -/
def twFlat (w : T4) (H W : ℕ) : ℕ → ℕ → Int :=
  fun k co => wFlat w H W co k

lemma patchRow_flat3 (x : T4) (H W Y X b ci dy dz : ℕ)
    (hdy : dy < H) (hdz : dz < W) :
    patchRow x H W Y X b (flat3 H W ci dy dz) = x b ci (Y + dy) (X + dz) := by
  unfold patchRow
  rw [flat3_div H W ci dy dz hdy hdz, flat3_mod_div H W ci dy dz hdy hdz,
    flat3_mod H W ci dy dz hdz]

/-- Source `Conv2D.forward` (ops.py lines 98-110): for each output position
`(Y, X)`, `ret[:, :, Y, X] = tx.dot(tw)` with `tx` the flattened patch and
`tw` the transposed flattened kernel; the contraction runs over the
flattened `(cin, H, W)` column index. -/
def Conv2D.forward (x w : T4) (cin H W : ℕ) : T4 :=
  fun b co Y X =>
    ∑ k ∈ Finset.range (cin * (H * W)), patchRow x H W Y X b k * twFlat w H W k co

/-- Source `Conv2D.backward`, weight-gradient accumulation (lines 119-124):
`dw += gg.T.dot(tx).reshape(dw.shape)` summed over every output position
`(Y, X)`; entry `(co, ci, dy, dz)` reads the flattened patch column at the
C-order flat index of `(ci, dy, dz)`. -/
def Conv2D.dw (x g : T4) (bs H W oy ox : ℕ) : T4 :=
  fun co ci dy dz =>
    ∑ Y ∈ Finset.range oy, ∑ X ∈ Finset.range ox, ∑ b ∈ Finset.range bs,
      g b co Y X * patchRow x H W Y X b (flat3 H W ci dy dz)

/-- Source `Conv2D.backward`, input-gradient accumulation (lines 119-125):
`dx[:, :, Y:Y+H, X:X+W] += gg.dot(tw).reshape(bs, cin, H, W)` summed over
every output position; position `(y, z)` receives the contribution of
iteration `(Y, X)` exactly when it lies in that window, at in-window
offset `(y-Y, z-X)`. -/
def Conv2D.dx (w g : T4) (cout H W oy ox : ℕ) : T4 :=
  fun b ci y z =>
    ∑ Y ∈ Finset.range oy, ∑ X ∈ Finset.range ox,
      if (Y ≤ y ∧ y < Y + H) ∧ (X ≤ z ∧ z < X + W) then
        ∑ co ∈ Finset.range cout,
          g b co Y X * wFlat w H W co (flat3 H W ci (y - Y) (z - X))
      else 0

/-- Modelled from the spec: `im2col` lives in `tinygrad.utils`, which is not
under src/.  Spec §4.6 and the glossary define patch extraction as the
transform of the 4-D input into a 2-D matrix "whose rows are every
flattened sliding-window patch across all spatial positions and batch
elements".  Rows flatten `(b, Y, X)` in C order over `(bs, oy, ox)` and
columns flatten `(ci, dy, dx)` in C order over `(cin, H, W)` — the orders
forced by the call sites (`.reshape(bs, oy, ox, cout)` on the forward
product, `.reshape(w.shape)` on the backward one). -/
def im2col (x : T4) (H W oy ox : ℕ) : ℕ → ℕ → Int :=
  fun r c =>
    x (r / (oy * ox)) (c / (H * W))
      (r % (oy * ox) / ox + c % (H * W) / W)
      (r % ox + c % W)

lemma im2col_row (x : T4) (H W oy ox b Y X : ℕ) (hY : Y < oy) (hX : X < ox)
    (c : ℕ) :
    im2col x H W oy ox ((b * oy + Y) * ox + X) c = patchRow x H W Y X b c := by
  have hr : (b * oy + Y) * ox + X = flat3 oy ox b Y X := by
    unfold flat3; ring
  unfold im2col patchRow
  rw [hr, flat3_div oy ox b Y X hY hX, flat3_mod_div oy ox b Y X hY hX,
    flat3_mod oy ox b Y X hX]

/-- Source `FastConv2D.forward` (ops.py lines 130-146): one GEMM
`tx.dot(tw)` on the im2col patch matrix, reshaped to `(bs, oy, ox, cout)`
and reordered by `np.moveaxis` to `(bs, cout, oy, ox)` — so output entry
`(b, co, Y, X)` reads row `(b*oy + Y)*ox + X` of the product. -/
def FastConv2D.forward (x w : T4) (cin H W oy ox : ℕ) : T4 :=
  fun b co Y X =>
    ∑ c ∈ Finset.range (cin * (H * W)),
      im2col x H W oy ox ((b * oy + Y) * ox + X) c * twFlat w H W c co

/-- Source line 158: `ggt = np.moveaxis(grad_output, [0,1,2,3], [1,0,2,3])
.reshape(cout, -1)` — the output gradient with batch and channel swapped,
flattened over `(bs, oy, ox)` in C order; entry `(co, r)`. -/
def ggt (g : T4) (oy ox : ℕ) : ℕ → ℕ → Int :=
  fun co r => g (r / (oy * ox)) co (r % (oy * ox) / ox) (r % ox)

lemma ggt_row (g : T4) (oy ox co b Y X : ℕ) (hY : Y < oy) (hX : X < ox) :
    ggt g oy ox co ((b * oy + Y) * ox + X) = g b co Y X := by
  have hr : (b * oy + Y) * ox + X = flat3 oy ox b Y X := by
    unfold flat3; ring
  unfold ggt
  rw [hr, flat3_div oy ox b Y X hY hX, flat3_mod_div oy ox b Y X hY hX,
    flat3_mod oy ox b Y X hX]

/-- Source line 161: `dw = ggt.dot(tx).reshape(w.shape)` — contraction over
the flattened `(bs, oy, ox)` row index of the saved im2col matrix. -/
def FastConv2D.dw (x g : T4) (bs H W oy ox : ℕ) : T4 :=
  fun co ci dy dz =>
    ∑ r ∈ Finset.range (bs * (oy * ox)),
      ggt g oy ox co r * im2col x H W oy ox r (flat3 H W ci dy dz)

/-- Source line 164: `dxi = ggt.T.dot(tw)` — the input gradient in patch
space; entry `(r, c)` contracts over the output channels. -/
def dxi (w g : T4) (cout H W oy ox : ℕ) : ℕ → ℕ → Int :=
  fun r c => ∑ co ∈ Finset.range cout, ggt g oy ox co r * wFlat w H W co c

/-- Modelled from the spec: `col2im` lives in `tinygrad.utils`, which is not
under src/.  Spec §4.6 and the glossary define patch scatter as the exact
adjoint of patch extraction: it "adds each patch-space gradient
contribution back into every overlapping input spatial location it came
from".  The call site (line 168) passes the input spatial extent
`(iy, ix) = (oy + (H-1), ox + (W-1))`; the patch grid scattered from is
`(iy - (H-1)) × (ix - (W-1))`, with rows and columns flattened exactly as
in `im2col`. -/
def col2im (M : ℕ → ℕ → Int) (H W iy ix : ℕ) : T4 :=
  fun b ci y z =>
    ∑ Y ∈ Finset.range (iy - (H - 1)), ∑ X ∈ Finset.range (ix - (W - 1)),
      ∑ dy ∈ Finset.range H, ∑ dz ∈ Finset.range W,
        if Y + dy = y ∧ X + dz = z then
          M ((b * (iy - (H - 1)) + Y) * (ix - (W - 1)) + X) (flat3 H W ci dy dz)
        else 0

/-- Source lines 164-168: `dx = col2im(dxi, H, W, oy+(H-1), ox+(W-1))`. -/
def FastConv2D.dx (w g : T4) (cout H W oy ox : ℕ) : T4 :=
  col2im (dxi w g cout H W oy ox) H W (oy + (H - 1)) (ox + (W - 1))

/-- Direct convolution forward as arithmetic: entry `(b, co, Y, X)` is the
triple sum of the input window against the kernel. -/
lemma conv2d_forward_eq_sum (x w : T4) (cin H W : ℕ) (b co Y X : ℕ) :
    Conv2D.forward x w cin H W b co Y X =
      ∑ ci ∈ Finset.range cin, ∑ dy ∈ Finset.range H, ∑ dz ∈ Finset.range W,
        x b ci (Y + dy) (X + dz) * w co ci dy dz := by
  unfold Conv2D.forward patchRow twFlat wFlat
  have h1 : ∑ k ∈ Finset.range (cin * (H * W)),
      x b (k / (H * W)) (Y + k % (H * W) / W) (X + k % W) *
        w co (k / (H * W)) (k % (H * W) / W) (k % W) =
    ∑ k ∈ Finset.range (cin * (H * W)),
      (fun i r => x b i (Y + r / W) (X + r % W) * w co i (r / W) (r % W))
        (k / (H * W)) (k % (H * W)) := by
    refine Finset.sum_congr rfl (fun k _ => ?_)
    have hw : k % W = k % (H * W) % W :=
      (Nat.mod_mod_of_dvd k ⟨H, by ring⟩).symm
    simp only
    rw [hw]
  rw [h1, sum_range_mul_divmod cin (H * W)
    (fun i r => x b i (Y + r / W) (X + r % W) * w co i (r / W) (r % W))]
  refine Finset.sum_congr rfl (fun ci _ => ?_)
  rw [sum_range_mul_divmod H W
    (fun dy dz => x b ci (Y + dy) (X + dz) * w co ci dy dz)]

/-- Forward agreement: on every in-range output position the patch-matrix
convolution computes exactly the direct one (the im2col row at that
position is the direct patch row). -/
lemma fastconv_forward_eq_conv (x w : T4) (cin H W oy ox : ℕ) (b co Y X : ℕ)
    (hY : Y < oy) (hX : X < ox) :
    FastConv2D.forward x w cin H W oy ox b co Y X =
      Conv2D.forward x w cin H W b co Y X := by
  unfold FastConv2D.forward Conv2D.forward
  exact Finset.sum_congr rfl
    (fun c _ => by rw [im2col_row x H W oy ox b Y X hY hX c])

/-- Direct weight gradient as arithmetic. -/
lemma conv2d_dw_eq_sum (x g : T4) (bs H W oy ox : ℕ) (co ci dy dz : ℕ)
    (hdy : dy < H) (hdz : dz < W) :
    Conv2D.dw x g bs H W oy ox co ci dy dz =
      ∑ Y ∈ Finset.range oy, ∑ X ∈ Finset.range ox, ∑ b ∈ Finset.range bs,
        g b co Y X * x b ci (Y + dy) (X + dz) := by
  unfold Conv2D.dw
  refine Finset.sum_congr rfl (fun Y _ => ?_)
  refine Finset.sum_congr rfl (fun X _ => ?_)
  refine Finset.sum_congr rfl (fun b _ => ?_)
  rw [patchRow_flat3 x H W Y X b ci dy dz hdy hdz]

/-- Patch-matrix weight gradient as arithmetic: unflattening the im2col
row index turns the single GEMM contraction into the batch/position sums. -/
lemma fastconv_dw_eq_sum (x g : T4) (bs H W oy ox : ℕ) (co ci dy dz : ℕ)
    (hdy : dy < H) (hdz : dz < W) :
    FastConv2D.dw x g bs H W oy ox co ci dy dz =
      ∑ b ∈ Finset.range bs, ∑ Y ∈ Finset.range oy, ∑ X ∈ Finset.range ox,
        g b co Y X * x b ci (Y + dy) (X + dz) := by
  unfold FastConv2D.dw ggt im2col
  have h1 : ∑ r ∈ Finset.range (bs * (oy * ox)),
      g (r / (oy * ox)) co (r % (oy * ox) / ox) (r % ox) *
        x (r / (oy * ox)) (flat3 H W ci dy dz / (H * W))
          (r % (oy * ox) / ox + flat3 H W ci dy dz % (H * W) / W)
          (r % ox + flat3 H W ci dy dz % W) =
    ∑ r ∈ Finset.range (bs * (oy * ox)),
      (fun b s => g b co (s / ox) (s % ox) *
        x b ci (s / ox + dy) (s % ox + dz)) (r / (oy * ox)) (r % (oy * ox)) := by
    refine Finset.sum_congr rfl (fun r _ => ?_)
    have hw : r % ox = r % (oy * ox) % ox :=
      (Nat.mod_mod_of_dvd r ⟨oy, by ring⟩).symm
    simp only
    rw [flat3_div H W ci dy dz hdy hdz, flat3_mod_div H W ci dy dz hdy hdz,
      flat3_mod H W ci dy dz hdz, hw]
  rw [h1, sum_range_mul_divmod bs (oy * ox)
    (fun b s => g b co (s / ox) (s % ox) * x b ci (s / ox + dy) (s % ox + dz))]
  refine Finset.sum_congr rfl (fun b _ => ?_)
  rw [sum_range_mul_divmod oy ox
    (fun Y X => g b co Y X * x b ci (Y + dy) (X + dz))]

/-- Input-gradient agreement: collapsing the patch-scatter's window guard
turns the col2im accumulation into the direct backward's slice updates. -/
lemma conv_dx_eq_fast_dx (w g : T4) (cout H W oy ox : ℕ) (b ci y z : ℕ) :
    Conv2D.dx w g cout H W oy ox b ci y z =
      FastConv2D.dx w g cout H W oy ox b ci y z := by
  unfold FastConv2D.dx col2im Conv2D.dx
  rw [Nat.add_sub_cancel, Nat.add_sub_cancel]
  refine Finset.sum_congr rfl (fun Y hYm => ?_)
  refine Finset.sum_congr rfl (fun X hXm => ?_)
  have hY : Y < oy := Finset.mem_range.mp hYm
  have hX : X < ox := Finset.mem_range.mp hXm
  have ht : ∀ dy dz : ℕ,
      dxi w g cout H W oy ox ((b * oy + Y) * ox + X) (flat3 H W ci dy dz) =
        ∑ co ∈ Finset.range cout,
          g b co Y X * wFlat w H W co (flat3 H W ci dy dz) := by
    intro dy dz
    unfold dxi
    exact Finset.sum_congr rfl
      (fun co _ => by rw [ggt_row g oy ox co b Y X hY hX])
  have hinner : ∀ dy : ℕ,
      (∑ dz ∈ Finset.range W,
        if Y + dy = y ∧ X + dz = z then
          dxi w g cout H W oy ox ((b * oy + Y) * ox + X) (flat3 H W ci dy dz)
        else 0) =
      (if Y + dy = y then
        (if X ≤ z ∧ z < X + W then
          ∑ co ∈ Finset.range cout,
            g b co Y X * wFlat w H W co (flat3 H W ci dy (z - X))
        else 0)
      else 0) := by
    intro dy
    by_cases hA : Y + dy = y
    · rw [if_pos hA]
      rw [← sum_range_ite_window W X z
        (fun dz => ∑ co ∈ Finset.range cout,
          g b co Y X * wFlat w H W co (flat3 H W ci dy dz))]
      refine Finset.sum_congr rfl (fun dz _ => ?_)
      rw [ht dy dz]
      by_cases hB : X + dz = z
      · rw [if_pos ⟨hA, hB⟩, if_pos hB]
      · rw [if_neg (by tauto), if_neg hB]
    · rw [if_neg hA]
      refine Finset.sum_eq_zero (fun dz _ => ?_)
      rw [if_neg (by tauto)]
  have houter : (∑ dy ∈ Finset.range H, ∑ dz ∈ Finset.range W,
      if Y + dy = y ∧ X + dz = z then
        dxi w g cout H W oy ox ((b * oy + Y) * ox + X) (flat3 H W ci dy dz)
      else 0) =
    (if Y ≤ y ∧ y < Y + H then
      (if X ≤ z ∧ z < X + W then
        ∑ co ∈ Finset.range cout,
          g b co Y X * wFlat w H W co (flat3 H W ci (y - Y) (z - X))
      else 0)
    else 0) := by
    rw [Finset.sum_congr rfl (fun dy _ => hinner dy)]
    exact sum_range_ite_window H Y y
      (fun dy => if X ≤ z ∧ z < X + W then
        ∑ co ∈ Finset.range cout,
          g b co Y X * wFlat w H W co (flat3 H W ci dy (z - X))
      else 0)
  rw [houter, ite_and]

/-!
MaxPool2x2 (ops.py lines 174-195).
-/

/-- Stacked candidate `k ∈ {0,1,2,3}` (lines 177-181): the append order is
`Y`-major, `X`-minor, so candidate `k` is the strided slice
`x[:, :, (k/2)::2, (k%2)::2]`, whose element `(b, c, i, j)` is
`x[b, c, 2i + k/2, 2j + k%2]`. -/
def poolCand (x : T4) (k b c i j : ℕ) : Int :=
  x b c (2 * i + k / 2) (2 * j + k % 2)

/-- Embedding of `np.argmax` along the stacked axis of four candidates
(line 182): the index of the first occurrence of the maximum. -/
def argmax4 (v : ℕ → Int) : ℕ :=
  if v 0 ≥ v 1 ∧ v 0 ≥ v 2 ∧ v 0 ≥ v 3 then 0
  else if v 1 ≥ v 2 ∧ v 1 ≥ v 3 then 1
  else if v 2 ≥ v 3 then 2
  else 3

lemma argmax4_lt (v : ℕ → Int) : argmax4 v < 4 := by
  unfold argmax4
  split_ifs <;> omega

lemma argmax4_le (v : ℕ → Int) : ∀ m, m < 4 → v m ≤ v (argmax4 v) := by
  unfold argmax4
  split_ifs with h1 h2 h3 <;>
    (intro m hm; interval_cases m <;> omega)

lemma argmax4_first (v : ℕ → Int) : ∀ m, m < argmax4 v → v m < v (argmax4 v) := by
  unfold argmax4
  split_ifs with h1 h2 h3 <;>
    (intro m hm; interval_cases m <;> omega)

/-- Source lines 182-183: the saved winner indices `idxs`. -/
def MaxPool2x2.idxs (x : T4) : ℕ → ℕ → ℕ → ℕ → ℕ :=
  fun b c i j => argmax4 (fun k => poolCand x k b c i j)

/-- Source line 184: `np.max(stack, axis=0)`, the elementwise maximum of
the four candidates. -/
def MaxPool2x2.forward (x : T4) : T4 :=
  fun b c i j =>
    max (max (poolCand x 0 b c i j) (poolCand x 1 b c i j))
      (max (poolCand x 2 b c i j) (poolCand x 3 b c i j))

/-- Source `MaxPool2x2.backward` (lines 186-194):
`ret[:, :, Y::2, X::2] = grad_output * (idxs == (Y*2+X))` — position
`(y, z)` belongs to sub-position `(y%2, z%2)` of block `(y/2, z/2)` and
receives the block gradient iff the saved index equals `(y%2)*2 + z%2`. -/
def MaxPool2x2.backward (idxs : ℕ → ℕ → ℕ → ℕ → ℕ) (g : T4) : T4 :=
  fun b c y z =>
    g b c (y / 2) (z / 2) *
      (if idxs b c (y / 2) (z / 2) = y % 2 * 2 + z % 2 then 1 else 0)

/-- Length of the strided slice `a[Y::2]` along an axis of extent `n`: the
count of indices `Y, Y+2, …` below `n`. -/
def sliceLen2 (Y n : ℕ) : ℕ := (n - Y + 1) / 2

/-- Shape-level embedding of `MaxPool2x2.forward` (lines 176-184):
`np.concatenate` (line 181) requires the four stacked slices to agree in
shape; when they do, the output shape after the stacked-axis reduction is
the common slice shape, otherwise the forward raises (embedded as
`none`). -/
def MaxPool2x2.forwardShape (bs ch iy ix : ℕ) : Option (ℕ × ℕ × ℕ × ℕ) :=
  if sliceLen2 0 iy = sliceLen2 1 iy ∧ sliceLen2 0 ix = sliceLen2 1 ix then
    some (bs, ch, sliceLen2 0 iy, sliceLen2 0 ix)
  else none

/-- Shape of `FastConv2D.forward`'s result (lines 132-146): the GEMM output
is reshaped to `(bs, oy, ox, cout)` with `oy = iy - (H-1)`,
`ox = ix - (W-1)` (line 134) and reordered by `np.moveaxis` to
`(bs, cout, oy, ox)` (line 146). -/
def FastConv2D.outShape (bs cout H W iy ix : ℕ) : ℕ × ℕ × ℕ × ℕ :=
  (bs, cout, iy - (H - 1), ix - (W - 1))

/-!
Concrete inputs used by witnesses and counterexamples.
-/

/-- Constant-zero 4-D tensor. -/
def z4 : T4 := fun _ _ _ _ => 0

/-- Concrete 4×4-spatial input whose block (0,0) has its maximum 5 at
sub-position (0,1), i.e. stacked candidate index 1. -/
def mpX : T4 := fun _ _ y z => if y = 0 ∧ z = 1 then 5 else 0

/-- Concrete constant incoming gradient for the max-pool witness. -/
def mpG : T4 := fun _ _ _ _ => 7

/-- Concrete 2×3 array for the reshape witness. -/
def rsX : NDArray := ⟨[2, 3], fun i => (i : Int)⟩

/-- Concrete 2×3 upstream gradient for the reshape witness. -/
def rsG : NDArray := ⟨[2, 3], fun i => (2 * i : Int)⟩

/-- Concrete all-zero length-2 array. -/
def sumX1 : NDArray := ⟨[2], fun _ => 0⟩

/-- Concrete all-one length-2 array, same shape as `sumX1`. -/
def sumX2 : NDArray := ⟨[2], fun _ => 1⟩

/-- Concrete length-2 gradient array. -/
def cgArr : NDArray := ⟨[2], fun i => (i : Int)⟩

/-- C1: for every input of shape (bs, cin, iy, ix) and weight of shape
(cout, cin, H, W) with H ≤ iy and W ≤ ix, the direct convolution
(`Conv2D`) and the patch-matrix convolution (`FastConv2D`) produce the
same forward output on every output position, the same input gradient at
every entry, and the same weight gradient at every kernel entry, for
identical inputs and identical incoming output gradients (exact arithmetic
stands in for floating point, so "up to summation order" is exact
equality). -/
theorem conv2d_fastconv2d_equiv (x w g : T4) (bs cin cout H W iy ix : ℕ)
    (hH : H ≤ iy) (hW : W ≤ ix) :
    (∀ b co Y X, Y < iy - (H - 1) → X < ix - (W - 1) →
      Conv2D.forward x w cin H W b co Y X =
        FastConv2D.forward x w cin H W (iy - (H - 1)) (ix - (W - 1)) b co Y X) ∧
    (∀ b ci y z,
      Conv2D.dx w g cout H W (iy - (H - 1)) (ix - (W - 1)) b ci y z =
        FastConv2D.dx w g cout H W (iy - (H - 1)) (ix - (W - 1)) b ci y z) ∧
    (∀ co ci dy dz, dy < H → dz < W →
      Conv2D.dw x g bs H W (iy - (H - 1)) (ix - (W - 1)) co ci dy dz =
        FastConv2D.dw x g bs H W (iy - (H - 1)) (ix - (W - 1)) co ci dy dz) := by
  refine ⟨fun b co Y X hY hX =>
      (fastconv_forward_eq_conv x w cin H W _ _ b co Y X hY hX).symm,
    fun b ci y z => conv_dx_eq_fast_dx w g cout H W _ _ b ci y z,
    fun co ci dy dz hdy hdz => ?_⟩
  rw [conv2d_dw_eq_sum x g bs H W _ _ co ci dy dz hdy hdz,
    fastconv_dw_eq_sum x g bs H W _ _ co ci dy dz hdy hdz]
  calc ∑ Y ∈ Finset.range (iy - (H - 1)), ∑ X ∈ Finset.range (ix - (W - 1)),
      ∑ b ∈ Finset.range bs, g b co Y X * x b ci (Y + dy) (X + dz) =
      ∑ Y ∈ Finset.range (iy - (H - 1)), ∑ b ∈ Finset.range bs,
        ∑ X ∈ Finset.range (ix - (W - 1)),
          g b co Y X * x b ci (Y + dy) (X + dz) :=
        Finset.sum_congr rfl (fun Y _ => Finset.sum_comm)
    _ = ∑ b ∈ Finset.range bs, ∑ Y ∈ Finset.range (iy - (H - 1)),
        ∑ X ∈ Finset.range (ix - (W - 1)),
          g b co Y X * x b ci (Y + dy) (X + dz) := Finset.sum_comm

/-- Witness for C1 at bs = cin = cout = H = W = iy = ix = 1 with zero
tensors: the hypotheses hold and the forward outputs agree at the single
output position. -/
theorem conv2d_fastconv2d_equiv_witness :
    (1 ≤ 1 ∧ (0:ℕ) < 1 - (1 - 1)) ∧
      Conv2D.forward z4 z4 1 1 1 0 0 0 0 =
        FastConv2D.forward z4 z4 1 1 1 (1 - (1 - 1)) (1 - (1 - 1)) 0 0 0 0 :=
  ⟨⟨by decide, by decide⟩,
    (conv2d_fastconv2d_equiv z4 z4 z4 1 1 1 1 1 1 1 (by decide) (by decide)).1
      0 0 0 0 (by decide) (by decide)⟩

/-- C2: Dot's backward returns `g · wᵗ` for the left operand, and for the
right operand the code's `(gᵗ · x)ᵗ`, which equals `xᵗ · g` (contraction
over the batch rows `m`; `p` is the output column count). -/
theorem dot_backward_grads (x w g : Mat) (n m p : ℕ) :
    (Dot.backward (Dot.forward x w n).2 g m p).1 = mdot g (mT w) p ∧
    (Dot.backward (Dot.forward x w n).2 g m p).2 = mdot (mT x) g m := by
  constructor
  · rfl
  · funext i j
    show mdot (mT g) x m j i = mdot (mT x) g m i j
    unfold mdot mT
    exact Finset.sum_congr rfl (fun k _ => Int.mul_comm _ _)

/-- C3: MaxPool2x2's backward writes the whole block gradient at the
winning sub-position recorded by the saved index, writes zero at the other
three sub-positions, and the saved index is the first occurrence of the
maximum in the Y-major, X-minor candidate enumeration (so ties route the
gradient to the lowest-index candidate). -/
theorem maxpool2x2_backward_scatter (x g : T4) (b c i j : ℕ) :
    MaxPool2x2.backward (MaxPool2x2.idxs x) g b c
        (2 * i + MaxPool2x2.idxs x b c i j / 2)
        (2 * j + MaxPool2x2.idxs x b c i j % 2) = g b c i j ∧
    (∀ k, k < 4 → k ≠ MaxPool2x2.idxs x b c i j →
      MaxPool2x2.backward (MaxPool2x2.idxs x) g b c
        (2 * i + k / 2) (2 * j + k % 2) = 0) ∧
    (∀ m, m < 4 →
      poolCand x m b c i j ≤
        poolCand x (MaxPool2x2.idxs x b c i j) b c i j) ∧
    (∀ m, m < MaxPool2x2.idxs x b c i j →
      poolCand x m b c i j <
        poolCand x (MaxPool2x2.idxs x b c i j) b c i j) := by
  have hK4 : MaxPool2x2.idxs x b c i j < 4 :=
    argmax4_lt (fun k => poolCand x k b c i j)
  refine ⟨?_, ?_,
    argmax4_le (fun k => poolCand x k b c i j),
    argmax4_first (fun k => poolCand x k b c i j)⟩
  · unfold MaxPool2x2.backward
    have h1 : (2 * i + MaxPool2x2.idxs x b c i j / 2) / 2 = i := by omega
    have h2 : (2 * j + MaxPool2x2.idxs x b c i j % 2) / 2 = j := by omega
    have h3 : (2 * i + MaxPool2x2.idxs x b c i j / 2) % 2 * 2 +
        (2 * j + MaxPool2x2.idxs x b c i j % 2) % 2 =
        MaxPool2x2.idxs x b c i j := by omega
    rw [h1, h2, h3, if_pos rfl, Int.mul_one]
  · intro k hk hne
    unfold MaxPool2x2.backward
    have h1 : (2 * i + k / 2) / 2 = i := by omega
    have h2 : (2 * j + k % 2) / 2 = j := by omega
    have h3 : (2 * i + k / 2) % 2 * 2 + (2 * j + k % 2) % 2 = k := by omega
    rw [h1, h2, h3, if_neg (fun h => hne h.symm), Int.mul_zero]

/-- Witness for C3 on a concrete block whose maximum sits at candidate
index 1: the zero sub-positions and tie-breaking facts instantiate. -/
theorem maxpool2x2_backward_scatter_witness :
    ((3:ℕ) < 4 ∧ (3:ℕ) ≠ MaxPool2x2.idxs mpX 0 0 0 0) ∧
      MaxPool2x2.backward (MaxPool2x2.idxs mpX) mpG 0 0
        (2 * 0 + 3 / 2) (2 * 0 + 3 % 2) = 0 :=
  ⟨⟨by decide, by decide⟩,
    (maxpool2x2_backward_scatter mpX mpG 0 0 0 0).2.1 3 (by decide) (by decide)⟩

/-- C4: LogSoftmax's forward saves its output (not its input) in the
context, and its backward returns `g − exp(saved output) * rowsum(g)`
broadcast over each row — the log-softmax Jacobian-vector product
expressed purely in terms of the saved output. -/
theorem logsoftmax_saves_output_and_jvp (x g : MatR) (n : ℕ) :
    (LogSoftmax.forward x n).2 = (LogSoftmax.forward x n).1 ∧
    (∀ i j, LogSoftmax.backward (LogSoftmax.forward x n).2 g n i j =
      g i j - Real.exp ((LogSoftmax.forward x n).1 i j) * rowSum g n i) :=
  ⟨rfl, fun _ _ => rfl⟩

/-- C5: reshaping to a valid target shape and back recovers the array
exactly, and pushing an upstream gradient backward through the
reshape-reshape pair returns it unchanged. -/
theorem reshape_round_trip (x g : NDArray) (s : List ℕ)
    (hs : listProd s = listProd x.shape) (hg : g.shape = x.shape) :
    (Reshape.forward (Reshape.forward x s).1 x.shape).1 = x ∧
    (∀ g1, (Reshape.backward
        (Reshape.forward (Reshape.forward x s).1 x.shape).2 g).1 = some g1 →
      (Reshape.backward (Reshape.forward x s).2 g1).1 = some g) := by
  constructor
  · obtain ⟨xs, xd⟩ := x
    rfl
  · intro g1 h1
    have hg1 : g1 = npReshape g s := by
      have := Option.some.inj h1
      exact this.symm
    rw [hg1]
    obtain ⟨gs, gd⟩ := g
    have hgs : gs = x.shape := hg
    subst hgs
    rfl

/-- Witness for C5 on a concrete 2×3 array reshaped through [3, 2]. -/
theorem reshape_round_trip_witness :
    (listProd [3, 2] = listProd rsX.shape ∧ rsG.shape = rsX.shape) ∧
      (Reshape.forward (Reshape.forward rsX [3, 2]).1 rsX.shape).1 = rsX :=
  ⟨⟨by decide, rfl⟩,
    (reshape_round_trip rsX rsG [3, 2] (by decide) rfl).1⟩

/-- Counterexample for C6: at the concrete gradient `cgArr`, Add's
backward returns the gradient itself for both inputs, not the no-gradient
placeholder `none` — refuting the claim that Add's backward returns the
placeholder for its inputs. -/
theorem add_backward_no_placeholder_cex :
    (Add.backward () cgArr).1 ≠ none ∧ (Add.backward () cgArr).2 ≠ none := by
  constructor <;> simp [Add.backward]

/-- C6 (amended): an operation signals "no gradient" for an input by
returning the placeholder `none`; Reshape's backward returns it for its
shape argument, while Add's backward returns the incoming gradient itself
(no placeholder) for both of its inputs. -/
theorem no_grad_placeholder (ctx : List ℕ) (g : NDArray) :
    (Reshape.backward ctx g).2 = none ∧ Add.backward () g = (some g, some g) :=
  ⟨rfl, rfl⟩

/-- Counterexample for C7: two same-shape inputs with different data give
different saved contexts, so Sum's forward does not save (only) the input
shape — it saves the input array itself
(`ctx.save_for_backward(input)`). -/
theorem sum_forward_saves_data_cex :
    sumX1.shape = sumX2.shape ∧ (Sum.forward sumX1).2 ≠ (Sum.forward sumX2).2 := by
  refine ⟨rfl, fun h => ?_⟩
  have h0 := congrArg (fun a => a.data 0) h
  simp [Sum.forward, sumX1, sumX2] at h0

/-- C7 (amended): Sum's forward saves the input array (not merely its
shape) and returns the one-element array holding the total; its backward
returns an array of the input's shape with every element equal to the
scalar incoming gradient. -/
theorem sum_forward_backward (x g : NDArray) :
    (Sum.forward x).2 = x ∧
    (Sum.forward x).1.shape = [1] ∧
    (Sum.forward x).1.data 0 = arrSum x ∧
    (Sum.backward (Sum.forward x).2 g).shape = x.shape ∧
    (∀ i, (Sum.backward (Sum.forward x).2 g).data i = g.data 0) := by
  refine ⟨rfl, rfl, rfl, rfl, fun i => ?_⟩
  simp [Sum.backward, onesLike]

/-- C8: exponentiating LogSoftmax's output row-wise yields a probability
distribution: the exponentials of each (nonempty) row sum to 1. -/
theorem logsoftmax_rows_normalized (x : MatR) (n i : ℕ) (hn : 0 < n) :
    ∑ j ∈ Finset.range n, Real.exp ((LogSoftmax.forward x n).1 i j) = 1 := by
  have hne : (Finset.range n).Nonempty := Finset.nonempty_range_iff.mpr (by omega)
  have hS : (0:ℝ) < ∑ k ∈ Finset.range n, Real.exp (x i k - rowMax (x i) n) :=
    Finset.sum_pos (fun k _ => Real.exp_pos _) hne
  show ∑ j ∈ Finset.range n, Real.exp (x i j - logsumexp x n i) = 1
  unfold logsumexp
  have hterm : ∀ j : ℕ,
      Real.exp (x i j - (rowMax (x i) n +
        Real.log (∑ k ∈ Finset.range n, Real.exp (x i k - rowMax (x i) n)))) =
      Real.exp (x i j - rowMax (x i) n) /
        ∑ k ∈ Finset.range n, Real.exp (x i k - rowMax (x i) n) := by
    intro j
    rw [show x i j - (rowMax (x i) n +
        Real.log (∑ k ∈ Finset.range n, Real.exp (x i k - rowMax (x i) n))) =
      (x i j - rowMax (x i) n) -
        Real.log (∑ k ∈ Finset.range n, Real.exp (x i k - rowMax (x i) n)) by
        ring]
    rw [Real.exp_sub, Real.exp_log hS]
  rw [Finset.sum_congr rfl (fun j _ => hterm j), ← Finset.sum_div,
    div_self (ne_of_gt hS)]

/-- Witness for C8 at the constant-zero 1-column input. -/
theorem logsoftmax_rows_normalized_witness :
    (0 < 1) ∧
      ∑ j ∈ Finset.range 1,
        Real.exp ((LogSoftmax.forward (fun _ _ => 0) 1).1 0 j) = 1 :=
  ⟨by decide, logsoftmax_rows_normalized (fun _ _ => 0) 1 0 (by decide)⟩

/-- C9: MaxPool2x2's forward succeeds exactly on even spatial extents: a
(bs, ch, 2m, 2n) input yields a (bs, ch, m, n) output shape, while an odd
height or width makes the four strided sub-slices disagree in shape, so
the stacking step fails (`none`) before any output is produced. -/
theorem maxpool2x2_forward_shape (bs ch m n iy ix : ℕ)
    (hodd : Odd iy ∨ Odd ix) :
    MaxPool2x2.forwardShape bs ch (2 * m) (2 * n) = some (bs, ch, m, n) ∧
    MaxPool2x2.forwardShape bs ch iy ix = none := by
  constructor
  · unfold MaxPool2x2.forwardShape sliceLen2
    rw [if_pos (by omega)]
    have h1 : (2 * m - 0 + 1) / 2 = m := by omega
    have h2 : (2 * n - 0 + 1) / 2 = n := by omega
    rw [h1, h2]
  · unfold MaxPool2x2.forwardShape sliceLen2
    rcases hodd with ⟨k, hk⟩ | ⟨k, hk⟩ <;> rw [if_neg (by omega)]

/-- Witness for C9 at the odd input extent 3 (width 4 even). -/
theorem maxpool2x2_forward_shape_witness :
    (Odd 3 ∨ Odd 4) ∧ MaxPool2x2.forwardShape 1 1 3 4 = none :=
  ⟨Or.inl ⟨1, by norm_num⟩, (maxpool2x2_forward_shape 1 1 1 1 3 4 (Or.inl ⟨1, by norm_num⟩)).2⟩

/-- C10: with positive kernel extents fitting inside the input,
FastConv2D's forward output has shape (bs, cout, iy − H + 1, ix − W + 1),
and each in-range output entry is the stride-1 "valid" (no padding)
convolution sum of the input window against the kernel. -/
theorem fastconv2d_forward_valid_shape (x w : T4) (bs cin cout H W iy ix : ℕ)
    (hH1 : 1 ≤ H) (hH : H ≤ iy) (hW1 : 1 ≤ W) (hW : W ≤ ix) :
    FastConv2D.outShape bs cout H W iy ix = (bs, cout, iy - H + 1, ix - W + 1) ∧
    (∀ b co Y X, Y < iy - H + 1 → X < ix - W + 1 →
      FastConv2D.forward x w cin H W (iy - (H - 1)) (ix - (W - 1)) b co Y X =
        ∑ ci ∈ Finset.range cin, ∑ dy ∈ Finset.range H, ∑ dz ∈ Finset.range W,
          x b ci (Y + dy) (X + dz) * w co ci dy dz) := by
  have he1 : iy - (H - 1) = iy - H + 1 := by omega
  have he2 : ix - (W - 1) = ix - W + 1 := by omega
  constructor
  · unfold FastConv2D.outShape
    rw [he1, he2]
  · intro b co Y X hY hX
    rw [fastconv_forward_eq_conv x w cin H W _ _ b co Y X (by omega) (by omega),
      conv2d_forward_eq_sum]

/-- Witness for C10 at the 1×1 kernel on a 1×1 input. -/
theorem fastconv2d_forward_valid_shape_witness :
    (1 ≤ 1 ∧ (1:ℕ) ≤ 1) ∧
      FastConv2D.outShape 1 1 1 1 1 1 = (1, 1, 1 - 1 + 1, 1 - 1 + 1) :=
  ⟨⟨le_refl 1, le_refl 1⟩,
    (fastconv2d_forward_valid_shape z4 z4 1 1 1 1 1 1 1
      (by decide) (by decide) (by decide) (by decide)).1⟩

end TG
